import Mathlib

/-!
Shallow embedding of the `serious` spaced-repetition scheduler (`serious.py`)
together with proofs of the specification claims.

Modelling conventions.  Python integers become `ℤ` (trials, counters, rowids,
stored timestamps), Python floats become `ℝ` (`time.time()`, the interval
table), Python lists become `List`.  The SQLite `Item` table is a `List Card`,
the interactive input stream is a `List String`, and printing is dropped (it
carries no program state).  `time.time()` is read repeatedly in the source;
within one modelled session it is passed explicitly as a single value `now`.
A Python runtime error (IndexError, EOFError on exhausted input, TypeError on
a missing row) is modelled as `Option.none` wherever it can arise.
-/

namespace Serious

/-- The in-memory scheduling unit: dataclass `Item(rowid, review_time, trial)`,
all fields defaulting to `0`; `__lt__` compares `review_time` only. -/
structure Item where
  rowid : ℤ := 0
  review_time : ℤ := 0
  trial : ℤ := 0
deriving DecidableEq

instance : Inhabited Item := ⟨{}⟩

/-- One row of the SQLite `Item` table (schema in `make_db`): `recalled`,
`forgot`, `review_time`, `trial` default to `0`, `history` defaults to `""`,
`deck` defaults to `"default"`, `question` is `UNIQUE`.  `rowid` is the SQLite
row identifier (its allocation by the storage engine is not modelled). -/
structure Card where
  rowid : ℤ
  recalled : ℤ
  forgot : ℤ
  review_time : ℤ
  trial : ℤ
  question : String
  answer : String
  history : String
  deck : String
deriving DecidableEq

instance : Inhabited Card := ⟨⟨0, 0, 0, 0, 0, "", "", "", "default"⟩⟩

/-- Python `int(x)` applied to a float: truncation toward zero. -/
noncomputable def pyInt (x : ℝ) : ℤ := if 0 ≤ x then ⌊x⌋ else ⌈x⌉

/-- Python list subscription `l[i]`: a negative index counts from the end.
An out-of-range access raises `IndexError` in Python; it is modelled as `0`
here and is never reached under the trial invariant `0 ≤ trial ≤ r`. -/
def pyIndex (l : List ℝ) (i : ℤ) : ℝ :=
  if 0 ≤ i then l.getD i.toNat 0 else l.getD (l.length - (-i).toNat) 0

/-- `_update_items(item, intervals, trial)`: `dataclasses.replace(item,
trial=trial, review_time=int(time.time() + intervals[trial]))`. -/
noncomputable def update_items (now : ℝ) (item : Item) (intervals : List ℝ)
    (trial : ℤ) : Item :=
  { item with trial := trial, review_time := pyInt (now + pyIndex intervals trial) }

/-- `add_success(item, intervals)`: new trial `min(len(intervals) - 1, trial + 1)`. -/
noncomputable def add_success (now : ℝ) (item : Item) (intervals : List ℝ) : Item :=
  update_items now item intervals (min ((intervals.length : ℤ) - 1) (item.trial + 1))

/-- `add_failure(item, intervals)`: new trial `item.trial // 2`
(Python `//` is floor division, `Int.fdiv`). -/
noncomputable def add_failure (now : ℝ) (item : Item) (intervals : List ℝ) : Item :=
  update_items now item intervals (Int.fdiv item.trial 2)

/-- `compute_intervals(trials, hours)`:
`c = log(hours + 1) / trials; [(exp(n*c) - 1) * 60 * 60 for n in range(trials + 1)]`. -/
noncomputable def compute_intervals (trials : ℕ) (hours : ℝ) : List ℝ :=
  (List.range (trials + 1)).map fun n : ℕ =>
    (Real.exp ((n : ℝ) * (Real.log (hours + 1) / trials)) - 1) * 60 * 60

/-- `n`-fold application of `add_success` (specification helper for the
"repeated success" claim). -/
noncomputable def iterate_success (now : ℝ) (intervals : List ℝ) : ℕ → Item → Item
  | 0, item => item
  | n + 1, item => add_success now (iterate_success now intervals n item) intervals

/-- `update_item(item, db, success)`: the SQL
`UPDATE Item SET review_time = ?, trial = ?, recalled = recalled + 1,
history = history || "o" WHERE rowid = ?` (with `forgot`/`"x"` when
`success` is false), modelled row by row over the table. -/
def update_item (item : Item) (db : List Card) (success : Bool) : List Card :=
  db.map fun c =>
    if c.rowid = item.rowid then
      { c with
        review_time := item.review_time
        trial := item.trial
        recalled := if success then c.recalled + 1 else c.recalled
        forgot := if success then c.forgot else c.forgot + 1
        history := c.history ++ (if success then "o" else "x") }
    else c

/-- Dataclass `ReviewItem`: the full card content materialised for display. -/
structure ReviewItem where
  item : Item
  recalled : ℤ
  forgot : ℤ
  question : String
  answer : String
  history : String
deriving DecidableEq

/-- `make_review_item(item, db)`: `SELECT recalled, forgot, question, answer,
history FROM Item WHERE rowid = ?` (`fetchone`); a missing row makes the Python
code crash, modelled as `none`. -/
def make_review_item (item : Item) (db : List Card) : Option ReviewItem :=
  (db.find? fun c => c.rowid == item.rowid).map fun c =>
    ⟨item, c.recalled, c.forgot, c.question, c.answer, c.history⟩

/-- The inner loop of `review`: repeatedly prompt at the answer prompt until
the user types `"r"` (recalled) or `"f"` (forgot); any other input re-issues
the same prompt.  `none` means the finite input list was exhausted, which in
Python raises `EOFError`. -/
def review_ans : List String → Option (Bool × List String)
  | [] => none
  | y :: rest =>
    if y = "r" then some (true, rest)
    else if y = "f" then some (false, rest)
    else review_ans rest

/-- The outer loop of `review`: at the question prompt `"q"` quits
(Python returns `None`), `"a"` reveals the answer and enters the inner loop,
and any other input re-issues the question prompt.  The returned value
depends only on the input stream, never on the card content. -/
def review_run : List String → Option (Option Bool × List String)
  | [] => none
  | x :: rest =>
    if x = "q" then some (none, rest)
    else if x = "a" then (review_ans rest).map fun p => (some p.1, p.2)
    else review_run rest

/-- Parent slot in the binary-heap array layout. -/
def parentIdx (c : ℕ) : ℕ := (c - 1) / 2

/-- `c` is a child slot of `i` in the binary-heap array layout. -/
def ChildIdx (i c : ℕ) : Prop := c = 2 * i + 1 ∨ c = 2 * i + 2

/-- `q` lies in the subtree rooted at `s` (reachability along parent links). -/
def descB (s : ℕ) (q : ℕ) : Bool :=
  if q = s then true
  else if q = 0 then false
  else descB s (parentIdx q)
termination_by q
decreasing_by simp only [parentIdx]; omega

/-- The heap ordering property at parent slot `i`: no child compares strictly
below its parent (CPython `heapq` only ever uses `<`, which on `Item` compares
`review_time`). -/
def HeapAt (l : List Item) (i : ℕ) : Prop :=
  ∀ c : ℕ, ChildIdx i c → c < l.length →
    (l.getD i default).review_time ≤ (l.getD c default).review_time

/-- The heap ordering property at every slot from `s` on. -/
def IsHeapFrom (l : List Item) (s : ℕ) : Prop := ∀ i : ℕ, s ≤ i → HeapAt l i

/-- The binary min-heap invariant maintained by `heapq`. -/
def IsHeap (l : List Item) : Prop := IsHeapFrom l 0

/-- CPython `heapq._siftdown(heap, startpos, pos)`: bubble `newitem` up along
the parent chain until its parent is not larger, shifting parents down.
CPython reads `newitem = heap[pos]` once at entry and never again; here it is
passed explicitly, which yields the same array. -/
def siftdown (heap : List Item) (startpos pos : ℕ) (newitem : Item) : List Item :=
  if startpos < pos then
    if newitem.review_time < (heap.getD (parentIdx pos) default).review_time then
      siftdown (heap.set pos (heap.getD (parentIdx pos) default)) startpos
        (parentIdx pos) newitem
    else heap.set pos newitem
  else heap.set pos newitem
termination_by pos
decreasing_by simp only [parentIdx]; omega

/-- The `childpos` selection inside the `_siftup` loop: start with the left
child `2*pos + 1`; move to the right child when it exists and the left child
does not compare strictly below it (`rightpos < endpos and not
heap[childpos] < heap[rightpos]`). -/
def siftupChild (heap : List Item) (pos : ℕ) : ℕ :=
  if 2 * pos + 2 < heap.length ∧
      ¬ (heap.getD (2 * pos + 1) default).review_time
          < (heap.getD (2 * pos + 2) default).review_time
  then 2 * pos + 2 else 2 * pos + 1

/-- The loop of CPython `heapq._siftup(heap, pos)`: walk a smaller-child path
down to a leaf, shifting each chosen child up one level, then place `newitem`
at the leaf and bubble it back up with `_siftdown`.  `endpos = len(heap)` is
read once in CPython; `List.set` preserves length, so re-reading it is equal. -/
def siftupLoop (heap : List Item) (startpos pos : ℕ) (newitem : Item) : List Item :=
  if h : 2 * pos + 1 < heap.length then
    siftupLoop (heap.set pos (heap.getD (siftupChild heap pos) default)) startpos
      (siftupChild heap pos) newitem
  else siftdown (heap.set pos newitem) startpos pos newitem
termination_by heap.length - pos
decreasing_by simp only [List.length_set, siftupChild]; split <;> omega

/-- CPython `heapq._siftup(heap, pos)`; `startpos = pos` and
`newitem = heap[pos]` are read at entry. -/
def siftup (heap : List Item) (pos : ℕ) : List Item :=
  siftupLoop heap pos pos (heap.getD pos default)

/-- CPython `heapq.heappush(heap, item)`: append, then `_siftdown(heap, 0,
len(heap) - 1)` with `newitem = item`. -/
def heappush (heap : List Item) (item : Item) : List Item :=
  siftdown (heap ++ [item]) 0 heap.length item

/-- CPython `heapq.heappop(heap)`: remove the last element; if the heap is
still non-empty, take the root as the return value, move the last element to
the root and `_siftup` it.  Popping an empty list raises `IndexError`
(modelled as `none`). -/
def heappop (heap : List Item) : Option (Item × List Item) :=
  match heap.getLast? with
  | none => none
  | some lastelt =>
    if heap.dropLast.isEmpty then some (lastelt, heap.dropLast)
    else some (heap.dropLast.getD 0 default, siftup (heap.dropLast.set 0 lastelt) 0)

/-- The loop of CPython `heapq.heapify(x)`:
`for i in reversed(range(n // 2)): _siftup(x, i)`. -/
def heapifyLoop : List Item → ℕ → List Item
  | heap, 0 => heap
  | heap, i + 1 => heapifyLoop (siftup heap i) i

/-- CPython `heapq.heapify(x)`. -/
def heapify (heap : List Item) : List Item := heapifyLoop heap (heap.length / 2)

/-- Repeatedly `heappop` until empty, with fuel (each pop shortens the list by
one, so `heap.length` fuel suffices). -/
def popAllFuel : ℕ → List Item → List Item
  | 0, _ => []
  | fuel + 1, heap =>
    match heappop heap with
    | none => []
    | some (x, rest) => x :: popAllFuel fuel rest

/-- The full pop-out sequence of a heap (specification helper). -/
def popAll (heap : List Item) : List Item := popAllFuel heap.length heap

/-- `load_items(db, decks)`: `SELECT rowid, review_time, trial FROM Item`
filtered to the given decks (no filter when `decks` is empty), then
`heapq.heapify`. -/
def load_items (db : List Card) (decks : List String) : List Item :=
  heapify (((if decks.isEmpty then db else db.filter fun c => decks.contains c.deck).map
    fun c => ⟨c.rowid, c.review_time, c.trial⟩) : List Item)

open Classical in
/-- The loop of `start_review(items, db, intervals, args)` instrumented with a
log (last component) of the items popped for presentation, in order.  The loop
runs while `items` is non-empty and `items[0].review_time <= now`; it pops the
root, materialises the card (a missing row crashes: `none`), runs `review`;
on quit it stops without reinserting or updating; on an outcome it applies the
trial transition, issues the single `update_item`, pushes the updated item
back and continues.  Each iteration consumes at least one input line, so
`inputs.length + 1` fuel (see `start_review_log`) is never exhausted; `none`
is either a crash or insufficient fuel. -/
noncomputable def start_review_aux (now : ℝ) (intervals : List ℝ) :
    ℕ → List Item → List Card → List String →
      Option (List Item × List Card × List String × List Item)
  | 0, _, _, _ => none
  | fuel + 1, items, db, inputs =>
    if items ≠ [] ∧ ((items.headD default).review_time : ℝ) ≤ now then
      match heappop items with
      | none => none
      | some (item, rest) =>
        if (make_review_item item db).isSome then
          match review_run inputs with
          | none => none
          | some (none, inputs') => some (rest, db, inputs', [item])
          | some (some true, inputs') =>
            (start_review_aux now intervals fuel
                (heappush rest (add_success now item intervals))
                (update_item (add_success now item intervals) db true) inputs').map
              fun s => (s.1, s.2.1, s.2.2.1, item :: s.2.2.2)
          | some (some false, inputs') =>
            (start_review_aux now intervals fuel
                (heappush rest (add_failure now item intervals))
                (update_item (add_failure now item intervals) db false) inputs').map
              fun s => (s.1, s.2.1, s.2.2.1, item :: s.2.2.2)
        else none
    else some (items, db, inputs, [])

/-- `start_review` with the presentation log. -/
noncomputable def start_review_log (now : ℝ) (intervals : List ℝ) (items : List Item)
    (db : List Card) (inputs : List String) :
    Option (List Item × List Card × List String × List Item) :=
  start_review_aux now intervals (inputs.length + 1) items db inputs

/-- `start_review(items, db, intervals, args)`: final item list, table state
and remaining input. -/
noncomputable def start_review (now : ℝ) (intervals : List ℝ) (items : List Item)
    (db : List Card) (inputs : List String) :
    Option (List Item × List Card × List String) :=
  (start_review_log now intervals items db inputs).map fun s => (s.1, s.2.1, s.2.2.1)

/-- A freshly inserted row: `INSERT INTO Item (question, answer, deck)` with
the schema defaults for every other column. -/
def make_card (deck q a : String) : Card := ⟨0, 0, 0, 0, 0, q, a, "", deck⟩

/-- Row-by-row insertion as SQLite `executemany` performs it: the first row
whose `question` already exists (in the table or inserted earlier in the same
batch) raises `IntegrityError`. -/
def insert_rows : List Card → List (String × String × String) → Option (List Card)
  | db, [] => some db
  | db, (q, a, d) :: rest =>
    if (db.map Card.question).contains q then none
    else insert_rows (db ++ [make_card d q a]) rest

/-- `_insert_into_item(db, batch)`: one batch inside one `with db`
transaction; an `IntegrityError` rolls the whole batch back (table unchanged,
`none`). -/
def insert_into_item (db : List Card) (batch : List (String × String × String)) :
    Option (List Card) :=
  insert_rows db batch

/-- The loop of `add_items`: accumulate rows (each extended with the deck)
into `batch`, flush whenever `len(batch) >= batch_size`, flush the remainder
at the end.  An `IntegrityError` propagates out of `add_items` (second
component `false`), leaving the previously committed batches in the table and
skipping the rest of this file's rows. -/
def add_items_go (deck : String) (batch_size : ℕ) :
    List Card → List (String × String × String) → List (String × String) →
      List Card × Bool
  | db, [], [] => (db, true)
  | db, b :: bs, [] =>
    match insert_into_item db (b :: bs) with
    | some db' => (db', true)
    | none => (db, false)
  | db, batch, (q, a) :: rows =>
    let batch' := batch ++ [(q, a, deck)]
    if batch_size ≤ batch'.length then
      match insert_into_item db batch' with
      | some db' => add_items_go deck batch_size db' [] rows
      | none => (db, false)
    else add_items_go deck batch_size db batch' rows

/-- `add_items(db, deck, csv_rows, batch_size)`. -/
def add_items (db : List Card) (deck : String) (csv_rows : List (String × String))
    (batch_size : ℕ) : List Card × Bool :=
  add_items_go deck batch_size db [] csv_rows

/-- `add_items_from_files(db, args)`: each file is a `(filename, rows)` pair;
`sqlite3.IntegrityError` is caught per file, reporting
`Duplicate question in file ...` (modelled as the list of reported filenames)
and continuing with the remaining files.  `add_items` is called with its
default `batch_size=1000`. -/
def add_items_from_files : List Card → String → List (String × List (String × String)) →
    List Card × List String
  | db, _, [] => (db, [])
  | db, deck, (fname, rows) :: rest =>
    ((add_items_from_files (add_items db deck rows 1000).1 deck rest).1,
      (if (add_items db deck rows 1000).2 then [] else [fname])
        ++ (add_items_from_files (add_items db deck rows 1000).1 deck rest).2)

/-- The card produced for one `(question, answer, deck)` tuple of a batch
(specification helper). -/
def tuple_card (t : String × String × String) : Card := make_card t.2.2 t.1 t.2.1

/-- The card produced for one csv `(question, answer)` row inserted into
`deck` (specification helper). -/
def row_card (deck : String) (p : String × String) : Card := make_card deck p.1 p.2

/-! ## Trial transition claims (C1, C2, C4) -/

theorem fdiv_two_eq_tdiv {a : ℤ} (h : 0 ≤ a) : Int.fdiv a 2 = Int.tdiv a 2 :=
  Int.fdiv_eq_tdiv h (by norm_num)

theorem fdiv_two_nonneg {a : ℤ} (h : 0 ≤ a) : 0 ≤ Int.fdiv a 2 := by
  rw [Int.fdiv_eq_ediv _ (by norm_num)]
  omega

theorem fdiv_two_le_self {a : ℤ} (h : 0 ≤ a) : Int.fdiv a 2 ≤ a := by
  rw [Int.fdiv_eq_ediv _ (by norm_num)]
  omega

/-- C1: the success transition sets `newTrial = min(r, trial + 1)` and
`newReviewTime = int(now + interval[newTrial])` when the interval table has
`r + 1` entries; iterating success from `trial = 0` gives trial `min(r, n)`
after `n` steps, hence trial `r` after exactly `r` steps (strictly below `r`
before that) and trial `r` forever after. -/
theorem C1_success_transition (now : ℝ) (item : Item) (intervals : List ℝ) (r : ℕ)
    (hlen : intervals.length = r + 1) :
    (add_success now item intervals).trial = min (r : ℤ) (item.trial + 1)
      ∧ (add_success now item intervals).review_time
          = pyInt (now + pyIndex intervals (min (r : ℤ) (item.trial + 1)))
      ∧ ∀ item0 : Item, item0.trial = 0 →
          (∀ n : ℕ, (iterate_success now intervals n item0).trial = min (r : ℤ) (n : ℤ))
            ∧ (iterate_success now intervals r item0).trial = (r : ℤ)
            ∧ (∀ n : ℕ, n < r → (iterate_success now intervals n item0).trial < (r : ℤ))
            ∧ (∀ n : ℕ, r ≤ n → (iterate_success now intervals n item0).trial = (r : ℤ)) := by
  have hl : (intervals.length : ℤ) - 1 = (r : ℤ) := by rw [hlen]; push_cast; ring
  refine ⟨by simp [add_success, update_items, hl], by simp [add_success, update_items, hl], ?_⟩
  intro item0 h0
  have key : ∀ n : ℕ, (iterate_success now intervals n item0).trial = min (r : ℤ) (n : ℤ) := by
    intro n
    induction n with
    | zero => simp [iterate_success, h0]
    | succ k ih =>
      show (add_success now (iterate_success now intervals k item0) intervals).trial = _
      simp only [add_success, update_items, hl, ih]
      push_cast
      omega
  refine ⟨key, ?_, ?_, ?_⟩
  · rw [key r]; omega
  · intro n hn; rw [key n]; omega
  · intro n hn; rw [key n]; omega

theorem C1_success_transition_witness :
    ([(0 : ℝ), 1, 2].length = 2 + 1)
      ∧ (add_success 0 { rowid := 1, review_time := 0, trial := 0 } [(0 : ℝ), 1, 2]).trial
          = min ((2 : ℕ) : ℤ) ({ rowid := 1, review_time := 0, trial := 0 : Item }.trial + 1) :=
  ⟨rfl, (C1_success_transition 0 { rowid := 1, review_time := 0, trial := 0 }
    [(0 : ℝ), 1, 2] 2 rfl).1⟩

/-- C2: the forgetting transition halves the trial, and for the reachable
domain `0 ≤ trial` the Python floor division `//` agrees with integer division
truncating toward zero (`Int.tdiv`); forgetting at trial `0` or `1` gives
trial `0`, and the new review time is `int(now + interval[newTrial])`. -/
theorem C2_failure_transition (now : ℝ) (item : Item) (intervals : List ℝ)
    (h0 : 0 ≤ item.trial) :
    (add_failure now item intervals).trial = Int.tdiv item.trial 2
      ∧ (add_failure now item intervals).review_time
          = pyInt (now + pyIndex intervals (Int.tdiv item.trial 2))
      ∧ ((item.trial = 0 ∨ item.trial = 1) → (add_failure now item intervals).trial = 0) := by
  have hdiv : Int.fdiv item.trial 2 = Int.tdiv item.trial 2 := fdiv_two_eq_tdiv h0
  refine ⟨by simp [add_failure, update_items, hdiv], by simp [add_failure, update_items, hdiv], ?_⟩
  intro h1
  have : Int.tdiv item.trial 2 = 0 := by rcases h1 with h | h <;> rw [h] <;> rfl
  simp [add_failure, update_items, hdiv, this]

theorem C2_failure_transition_witness :
    (0 : ℤ) ≤ (5 : ℤ)
      ∧ (add_failure 0 { rowid := 1, review_time := 0, trial := 5 } [(0 : ℝ), 1, 2]).trial
          = Int.tdiv 5 2 :=
  ⟨by norm_num,
    (C2_failure_transition 0 { rowid := 1, review_time := 0, trial := 5 } [(0 : ℝ), 1, 2]
      (by norm_num)).1⟩

/-- C4: with an interval table of length `r + 1` and `0 ≤ trial ≤ r`, both
transitions keep the trial in `[0, r]`: success never exceeds the plateau rung
`r` and forgetting never goes negative, so the trial remains a valid index. -/
theorem C4_trial_bounds (now : ℝ) (item : Item) (intervals : List ℝ) (r : ℕ)
    (hlen : intervals.length = r + 1) (h0 : 0 ≤ item.trial) (hr : item.trial ≤ (r : ℤ)) :
    (0 ≤ (add_success now item intervals).trial
        ∧ (add_success now item intervals).trial ≤ (r : ℤ))
      ∧ (0 ≤ (add_failure now item intervals).trial
        ∧ (add_failure now item intervals).trial ≤ (r : ℤ)) := by
  have hl : (intervals.length : ℤ) - 1 = (r : ℤ) := by rw [hlen]; push_cast; ring
  constructor
  · constructor
    · show 0 ≤ min ((intervals.length : ℤ) - 1) (item.trial + 1)
      rw [hl]; omega
    · show min ((intervals.length : ℤ) - 1) (item.trial + 1) ≤ (r : ℤ)
      rw [hl]; omega
  · exact ⟨fdiv_two_nonneg h0, le_trans (fdiv_two_le_self h0) hr⟩

theorem C4_trial_bounds_witness :
    (0 ≤ (add_success 0 { rowid := 1, review_time := 0, trial := 2 } [(0 : ℝ), 1, 2]).trial
        ∧ (add_success 0 { rowid := 1, review_time := 0, trial := 2 } [(0 : ℝ), 1, 2]).trial
            ≤ ((2 : ℕ) : ℤ))
      ∧ (0 ≤ (add_failure 0 { rowid := 1, review_time := 0, trial := 2 } [(0 : ℝ), 1, 2]).trial
        ∧ (add_failure 0 { rowid := 1, review_time := 0, trial := 2 } [(0 : ℝ), 1, 2]).trial
            ≤ ((2 : ℕ) : ℤ)) :=
  C4_trial_bounds 0 { rowid := 1, review_time := 0, trial := 2 } [(0 : ℝ), 1, 2] 2
    rfl (by norm_num) (by norm_num)

/-! ## Interval table claim (C3) -/

theorem compute_intervals_getD (r : ℕ) (h : ℝ) (n : ℕ) (hn : n ≤ r) :
    (compute_intervals r h).getD n 0
      = (Real.exp ((n : ℝ) * (Real.log (h + 1) / r)) - 1) * 3600 := by
  rw [compute_intervals, List.getD_eq_getElem?_getD]
  rw [List.getElem?_map, List.getElem?_range (by omega : n < r + 1)]
  simp
  ring

/-- C3: for `r ≥ 1` and `h > 0` the interval table has `r + 1` entries with
`interval[n] = (exp(n · ln(h+1)/r) − 1) · 3600`; hence `interval[0] = 0`,
`interval[r] = h · 3600`, and the sequence is strictly increasing. -/
theorem C3_interval_table (r : ℕ) (h : ℝ) (hr : 1 ≤ r) (hh : 0 < h) :
    (compute_intervals r h).length = r + 1
      ∧ (∀ n : ℕ, n ≤ r → (compute_intervals r h).getD n 0
            = (Real.exp ((n : ℝ) * (Real.log (h + 1) / r)) - 1) * 3600)
      ∧ (compute_intervals r h).getD 0 0 = 0
      ∧ (compute_intervals r h).getD r 0 = h * 3600
      ∧ ∀ m n : ℕ, m < n → n ≤ r →
          (compute_intervals r h).getD m 0 < (compute_intervals r h).getD n 0 := by
  have hrpos : (0 : ℝ) < r := by exact_mod_cast hr
  have hr0 : (r : ℝ) ≠ 0 := ne_of_gt hrpos
  refine ⟨by simp [compute_intervals], fun n hn => compute_intervals_getD r h n hn, ?_, ?_, ?_⟩
  · rw [compute_intervals_getD r h 0 (by omega)]
    simp
  · rw [compute_intervals_getD r h r le_rfl]
    rw [mul_div_assoc', mul_div_cancel_left₀ _ hr0, Real.exp_log (by linarith)]
    ring
  · intro m n hmn hn
    rw [compute_intervals_getD r h m (by omega), compute_intervals_getD r h n hn]
    have hc : 0 < Real.log (h + 1) / r := div_pos (Real.log_pos (by linarith)) hrpos
    have hexp : Real.exp ((m : ℝ) * (Real.log (h + 1) / r))
        < Real.exp ((n : ℝ) * (Real.log (h + 1) / r)) := by
      apply Real.exp_lt_exp.mpr
      apply mul_lt_mul_of_pos_right _ hc
      exact_mod_cast hmn
    nlinarith

theorem C3_interval_table_witness :
    (compute_intervals 20 2160).getD 0 0 = 0
      ∧ (compute_intervals 20 2160).getD 20 0 = 7776000
      ∧ (compute_intervals 20 2160).length = 20 + 1 := by
  have H := C3_interval_table 20 2160 (by norm_num) (by norm_num)
  refine ⟨H.2.2.1, ?_, H.1⟩
  rw [H.2.2.2.1]
  norm_num

/-! ## Update frame claim (C9) -/

theorem update_item_getD (item : Item) (db : List Card) (success : Bool) (i : ℕ)
    (hi : i < db.length) :
    (update_item item db success).getD i default
      = if (db.getD i default).rowid = item.rowid then
          { db.getD i default with
            review_time := item.review_time
            trial := item.trial
            recalled := if success then (db.getD i default).recalled + 1
              else (db.getD i default).recalled
            forgot := if success then (db.getD i default).forgot
              else (db.getD i default).forgot + 1
            history := (db.getD i default).history ++ (if success then "o" else "x") }
        else db.getD i default := by
  rw [update_item, List.getD_eq_getElem _ _ (by simpa using hi),
    List.getD_eq_getElem _ _ hi, List.getElem_map]

/-- C9: one review outcome performs exactly one table update: the row whose
`rowid` matches gets the new `review_time` and `trial`, the matching counter
(`recalled` on success, `forgot` on forgetting) incremented by exactly one
and the matching marker (`"o"`/`"x"`) appended to `history`, all in the one
`update_item` call; its `question`, `answer`, `deck` and the non-matching
counter, and every row with a different `rowid`, are unchanged. -/
theorem C9_update_frame (item : Item) (db : List Card) (success : Bool) (i : ℕ)
    (hi : i < db.length) :
    (update_item item db success).length = db.length
      ∧ ((db.getD i default).rowid ≠ item.rowid →
          (update_item item db success).getD i default = db.getD i default)
      ∧ ((db.getD i default).rowid = item.rowid →
          (update_item item db success).getD i default
            = { db.getD i default with
                review_time := item.review_time
                trial := item.trial
                recalled := (db.getD i default).recalled + (if success then 1 else 0)
                forgot := (db.getD i default).forgot + (if success then 0 else 1)
                history := (db.getD i default).history
                  ++ (if success then "o" else "x") }) := by
  refine ⟨by simp [update_item], ?_, ?_⟩
  · intro hne
    rw [update_item_getD item db success i hi, if_neg hne]
  · intro heq
    rw [update_item_getD item db success i hi, if_pos heq]
    cases success <;> simp

theorem C9_update_frame_witness :
    ((0 : ℕ) < ([⟨1, 0, 0, 0, 0, "q1", "a1", "", "default"⟩,
        ⟨2, 3, 4, 5, 6, "q2", "a2", "ox", "default"⟩] : List Card).length)
      ∧ (update_item { rowid := 2, review_time := 9, trial := 1 }
            [⟨1, 0, 0, 0, 0, "q1", "a1", "", "default"⟩,
              ⟨2, 3, 4, 5, 6, "q2", "a2", "ox", "default"⟩] true).getD 0 default
          = ([⟨1, 0, 0, 0, 0, "q1", "a1", "", "default"⟩,
              ⟨2, 3, 4, 5, 6, "q2", "a2", "ox", "default"⟩] : List Card).getD 0 default :=
  ⟨by norm_num,
    (C9_update_frame { rowid := 2, review_time := 9, trial := 1 }
      [⟨1, 0, 0, 0, 0, "q1", "a1", "", "default"⟩,
        ⟨2, 3, 4, 5, 6, "q2", "a2", "ox", "default"⟩] true 0 (by norm_num)).2.1
      (by decide)⟩

/-! ## Session-loop claims (C5, C6, C8) -/

theorem getD_zero_eq_headD (l : List Item) : l.getD 0 default = l.headD default := by
  cases l <;> rfl

theorem dropLast_getD_zero (l : List Item) (h : ¬ l.dropLast.isEmpty = true) :
    l.dropLast.getD 0 default = l.getD 0 default := by
  cases l with
  | nil => simp at h
  | cons x xs =>
    cases xs with
    | nil => simp at h
    | cons y ys => simp [List.dropLast]

theorem heappop_fst (items : List Item) (item : Item) (rest : List Item)
    (h : heappop items = some (item, rest)) : item = items.headD default := by
  unfold heappop at h
  split at h
  · cases h
  · rename_i lastelt hl
    split at h
    · rename_i he
      cases h
      cases items with
      | nil => cases hl
      | cons x xs =>
        cases xs with
        | nil => simp at hl; simp [hl]
        | cons y ys => simp [List.dropLast] at he
    · rename_i he
      cases h
      rw [dropLast_getD_zero items he, getD_zero_eq_headD]

theorem review_ans_suffix (inputs : List String) (b : Bool) (rest : List String)
    (h : review_ans inputs = some (b, rest)) : rest <:+ inputs := by
  induction inputs with
  | nil => cases h
  | cons y tail ih =>
    rw [review_ans] at h
    by_cases hr : y = "r"
    · rw [if_pos hr] at h; cases h; exact List.suffix_cons _ _
    · rw [if_neg hr] at h
      by_cases hf : y = "f"
      · rw [if_pos hf] at h; cases h; exact List.suffix_cons _ _
      · rw [if_neg hf] at h
        exact (ih h).trans (List.suffix_cons y tail)

theorem review_run_suffix (inputs : List String) (r : Option Bool) (rest : List String)
    (h : review_run inputs = some (r, rest)) : rest <:+ inputs := by
  induction inputs with
  | nil => cases h
  | cons x tail ih =>
    rw [review_run] at h
    by_cases hq : x = "q"
    · rw [if_pos hq] at h; cases h; exact List.suffix_cons _ _
    · rw [if_neg hq] at h
      by_cases ha : x = "a"
      · rw [if_pos ha] at h
        cases hra : review_ans tail with
        | none => rw [hra] at h; cases h
        | some p =>
          rw [hra] at h
          cases h
          exact (review_ans_suffix tail p.1 p.2 (by rw [hra])).trans (List.suffix_cons x tail)
      · rw [if_neg ha] at h
        exact (ih h).trans (List.suffix_cons x tail)

theorem start_review_aux_stop (now : ℝ) (intervals : List ℝ) (fuel : ℕ)
    (items : List Item) (db : List Card) (inputs : List String)
    (h : ¬ (items ≠ [] ∧ ((items.headD default).review_time : ℝ) ≤ now)) :
    start_review_aux now intervals (fuel + 1) items db inputs
      = some (items, db, inputs, []) := by
  rw [start_review_aux, if_neg h]

theorem start_review_aux_quit (now : ℝ) (intervals : List ℝ) (fuel : ℕ)
    (items rest : List Item) (db : List Card) (inputs inputs' : List String) (item : Item)
    (hg : items ≠ [] ∧ ((items.headD default).review_time : ℝ) ≤ now)
    (hpop : heappop items = some (item, rest))
    (hri : (make_review_item item db).isSome = true)
    (hq : review_run inputs = some (none, inputs')) :
    start_review_aux now intervals (fuel + 1) items db inputs
      = some (rest, db, inputs', [item]) := by
  rw [start_review_aux, if_pos hg, hpop]
  simp only [hri, if_true, hq]

theorem start_review_aux_outcome (now : ℝ) (intervals : List ℝ) (fuel : ℕ)
    (items rest : List Item) (db : List Card) (inputs inputs' : List String) (item : Item)
    (b : Bool)
    (hg : items ≠ [] ∧ ((items.headD default).review_time : ℝ) ≤ now)
    (hpop : heappop items = some (item, rest))
    (hri : (make_review_item item db).isSome = true)
    (hq : review_run inputs = some (some b, inputs')) :
    start_review_aux now intervals (fuel + 1) items db inputs
      = (start_review_aux now intervals fuel
            (heappush rest ((if b then add_success else add_failure) now item intervals))
            (update_item ((if b then add_success else add_failure) now item intervals) db b)
            inputs').map
          fun s => (s.1, s.2.1, s.2.2.1, item :: s.2.2.2) := by
  rw [start_review_aux, if_pos hg, hpop]
  simp only [hri, if_true, hq]
  cases b <;> rfl

theorem start_review_aux_spec (now : ℝ) (intervals : List ℝ) :
    ∀ (fuel : ℕ) (items : List Item) (db : List Card) (inputs : List String)
      (res : List Item × List Card × List String × List Item),
      start_review_aux now intervals fuel items db inputs = some res →
      (∀ x ∈ res.2.2.2, (x.review_time : ℝ) ≤ now)
        ∧ (res.1 = [] ∨ ¬ ((res.1.headD default).review_time : ℝ) ≤ now
            ∨ ∃ mid, mid <:+ inputs ∧ review_run mid = some (none, res.2.2.1)) := by
  intro fuel
  induction fuel with
  | zero => intro items db inputs res h; cases h
  | succ fuel ih =>
    intro items db inputs res h
    by_cases hg : items ≠ [] ∧ ((items.headD default).review_time : ℝ) ≤ now
    · rw [start_review_aux, if_pos hg] at h
      cases hpop : heappop items with
      | none => rw [hpop] at h; cases h
      | some p =>
        obtain ⟨item, rest⟩ := p
        rw [hpop] at h
        by_cases hri : (make_review_item item db).isSome = true
        · simp only [hri, if_true] at h
          have hdue : (item.review_time : ℝ) ≤ now := by
            rw [heappop_fst items item rest hpop]; exact hg.2
          cases hrun : review_run inputs with
          | none => rw [hrun] at h; cases h
          | some q =>
            obtain ⟨outcome, inputs'⟩ := q
            rw [hrun] at h
            have hsuf : inputs' <:+ inputs := review_run_suffix inputs outcome inputs' hrun
            cases outcome with
            | none =>
              cases h
              refine ⟨?_, Or.inr (Or.inr ⟨inputs, List.suffix_refl inputs, hrun⟩)⟩
              intro x hx
              rw [List.mem_singleton] at hx
              subst hx
              exact hdue
            | some b =>
              cases b
              · rcases Option.map_eq_some'.mp h with ⟨s, hs, rfl⟩
                obtain ⟨hlog, hexit⟩ := ih _ _ _ s hs
                refine ⟨?_, ?_⟩
                · intro x hx
                  rcases List.mem_cons.mp hx with rfl | hx
                  · exact hdue
                  · exact hlog x hx
                · rcases hexit with h1 | h2 | ⟨mid, hmid, hquit⟩
                  · exact Or.inl h1
                  · exact Or.inr (Or.inl h2)
                  · exact Or.inr (Or.inr ⟨mid, hmid.trans hsuf, hquit⟩)
              · rcases Option.map_eq_some'.mp h with ⟨s, hs, rfl⟩
                obtain ⟨hlog, hexit⟩ := ih _ _ _ s hs
                refine ⟨?_, ?_⟩
                · intro x hx
                  rcases List.mem_cons.mp hx with rfl | hx
                  · exact hdue
                  · exact hlog x hx
                · rcases hexit with h1 | h2 | ⟨mid, hmid, hquit⟩
                  · exact Or.inl h1
                  · exact Or.inr (Or.inl h2)
                  · exact Or.inr (Or.inr ⟨mid, hmid.trans hsuf, hquit⟩)
        · simp only [Bool.not_eq_true] at hri
          simp only [hri] at h
          cases h
    · rw [start_review_aux, if_neg hg] at h
      cases h
      push_neg at hg
      constructor
      · intro x hx; cases hx
      · by_cases hn : items = []
        · exact Or.inl hn
        · exact Or.inr (Or.inl (not_le.mpr (hg hn)))

/-- C5: when the user quits at the question prompt, the session loop stops at
once: the popped item is not reinserted and the table is returned unchanged —
no update is issued for that card (or any other), so its stored trial,
review time, counters and history are exactly as before the session. -/
theorem C5_quit_no_update (now : ℝ) (intervals : List ℝ) (items rest : List Item)
    (db : List Card) (inputs inputs' : List String) (item : Item)
    (hne : items ≠ []) (hdue : ((items.headD default).review_time : ℝ) ≤ now)
    (hpop : heappop items = some (item, rest))
    (hri : (make_review_item item db).isSome = true)
    (hq : review_run inputs = some (none, inputs')) :
    start_review now intervals items db inputs = some (rest, db, inputs') := by
  rw [start_review, start_review_log,
    start_review_aux_quit now intervals inputs.length items rest db inputs inputs' item
      ⟨hne, hdue⟩ hpop hri hq]
  rfl

theorem C5_quit_no_update_witness :
    start_review 0 [] [{ rowid := 1, review_time := 0, trial := 0 }]
        [⟨1, 0, 0, 0, 0, "q1", "a1", "", "default"⟩] ["q"]
      = some ([], [⟨1, 0, 0, 0, 0, "q1", "a1", "", "default"⟩], []) :=
  C5_quit_no_update 0 [] [{ rowid := 1, review_time := 0, trial := 0 }] []
    [⟨1, 0, 0, 0, 0, "q1", "a1", "", "default"⟩] ["q"] []
    { rowid := 1, review_time := 0, trial := 0 }
    (by decide) (by norm_num) (by decide) (by decide) (by decide)

/-- C6 is false of the code: quitting on the only remaining due item leaves
the item list empty (the popped item is not reinserted), after which `main`
evaluates `items[0]` and raises `IndexError`.  This theorem evaluates the
session at that failing input and shows the returned item list is `[]`. -/
theorem C6_quit_on_last_item :
    (start_review 0 [] [{ rowid := 1, review_time := 0, trial := 0 }]
        [⟨1, 0, 0, 0, 0, "q1", "a1", "", "default"⟩] ["q"]).map (fun s => s.1)
      = some ([] : List Item) := by
  rw [start_review, start_review_log,
    start_review_aux_quit 0 [] (["q"] : List String).length
      [{ rowid := 1, review_time := 0, trial := 0 }] []
      [⟨1, 0, 0, 0, 0, "q1", "a1", "", "default"⟩] ["q"] []
      { rowid := 1, review_time := 0, trial := 0 }
      ⟨by decide, by norm_num⟩ (by decide) (by decide) (by decide)]
  rfl

/-- C8: the session loop runs only while the queue is non-empty and the
root's review time is at or before `now` (otherwise it returns the state
unchanged); every item popped for presentation is due at `now`, so a card
with a future review time is never presented; and when the loop returns, the
queue is empty, or its earliest item is not yet due, or the user quit (the
remaining input is what a quit interaction left). -/
theorem C8_loop_guard (now : ℝ) (intervals : List ℝ) :
    (∀ (items : List Item) (db : List Card) (inputs : List String),
        (items = [] ∨ ¬ ((items.headD default).review_time : ℝ) ≤ now) →
        start_review now intervals items db inputs = some (items, db, inputs))
      ∧ ∀ (items : List Item) (db : List Card) (inputs : List String)
          (res : List Item × List Card × List String × List Item),
          start_review_log now intervals items db inputs = some res →
          (∀ x ∈ res.2.2.2, (x.review_time : ℝ) ≤ now)
            ∧ (res.1 = [] ∨ ¬ ((res.1.headD default).review_time : ℝ) ≤ now
                ∨ ∃ mid, mid <:+ inputs ∧ review_run mid = some (none, res.2.2.1)) := by
  constructor
  · intro items db inputs h
    have hn : ¬ (items ≠ [] ∧ ((items.headD default).review_time : ℝ) ≤ now) := by
      rcases h with h | h
      · intro hc; exact hc.1 h
      · intro hc; exact h hc.2
    rw [start_review, start_review_log, start_review_aux_stop now intervals inputs.length
      items db inputs hn]
    rfl
  · intro items db inputs res h
    exact start_review_aux_spec now intervals (inputs.length + 1) items db inputs res h

theorem C8_loop_guard_witness :
    start_review 0 [] [{ rowid := 1, review_time := 5, trial := 0 }] [] []
      = some ([{ rowid := 1, review_time := 5, trial := 0 }], [], []) :=
  (C8_loop_guard 0 []).1 [{ rowid := 1, review_time := 5, trial := 0 }] [] []
    (Or.inr (by norm_num))

/-! ## Import claim (C10) -/

theorem insert_rows_clean :
    ∀ (batch : List (String × String × String)) (db : List Card),
      (batch.map fun t => t.1).Nodup →
      (∀ q ∈ batch.map fun t => t.1, q ∉ db.map Card.question) →
      insert_rows db batch = some (db ++ batch.map tuple_card) := by
  intro batch
  induction batch with
  | nil => intro db _ _; simp [insert_rows]
  | cons t rest ih =>
    intro db hnodup hfresh
    obtain ⟨q, a, d⟩ := t
    have hq : ((db.map Card.question).contains q) = false := by
      simpa using hfresh q (by simp)
    rw [insert_rows, hq]
    simp only [Bool.false_eq_true, if_false]
    rw [ih (db ++ [make_card d q a]) (by simpa using hnodup.of_cons) ?_]
    · simp [tuple_card]
    · intro q' hq'
      have hne : q' ≠ q := by
        intro hcontra
        subst hcontra
        exact (List.nodup_cons.mp hnodup).1 hq'
      have : q' ∉ db.map Card.question := hfresh q' (by simp [hq'])
      simp [make_card, this, hne]

theorem add_items_go_clean :
    ∀ (rows : List (String × String)) (deck : String) (bs : ℕ)
      (batch : List (String × String × String)) (db : List Card),
      ((batch.map fun t => t.1) ++ rows.map Prod.fst).Nodup →
      (∀ q ∈ (batch.map fun t => t.1) ++ rows.map Prod.fst, q ∉ db.map Card.question) →
      add_items_go deck bs db batch rows
        = (db ++ batch.map tuple_card ++ rows.map (row_card deck), true) := by
  intro rows
  induction rows with
  | nil =>
    intro deck bs batch db hnodup hfresh
    cases batch with
    | nil => simp [add_items_go]
    | cons b bs' =>
      rw [add_items_go, insert_into_item,
        insert_rows_clean (b :: bs') db (by simpa using hnodup) (by simpa using hfresh)]
      simp
  | cons p rows ih =>
    intro deck bs batch db hnodup hfresh
    obtain ⟨q, a⟩ := p
    simp only [List.map_cons] at hnodup hfresh
    have hassoc : (batch.map fun t => t.1) ++ q :: rows.map Prod.fst
        = ((batch.map fun t => t.1) ++ [q]) ++ rows.map Prod.fst := by simp
    have hnd2 : (((batch.map fun t => t.1) ++ [q]) ++ rows.map Prod.fst).Nodup := by
      rw [← hassoc]; exact hnodup
    have hqs : ((batch ++ [(q, a, deck)]).map fun t => t.1)
        = (batch.map fun t => t.1) ++ [q] := by simp
    rw [add_items_go]
    by_cases hflush : bs ≤ (batch ++ [(q, a, deck)]).length
    · have hbatchnd : ((batch ++ [(q, a, deck)]).map fun t => t.1).Nodup := by
        rw [hqs]; exact hnd2.of_append_left
      have hbatchfresh : ∀ q' ∈ (batch ++ [(q, a, deck)]).map fun t => t.1,
          q' ∉ db.map Card.question := by
        intro q' hq'
        rw [hqs] at hq'
        rcases List.mem_append.mp hq' with h | h
        · exact hfresh q' (List.mem_append.mpr (Or.inl h))
        · rw [List.mem_singleton] at h
          subst h
          exact hfresh q' (by simp)
      rw [if_pos hflush, insert_into_item,
        insert_rows_clean (batch ++ [(q, a, deck)]) db hbatchnd hbatchfresh]
      show add_items_go deck bs (db ++ (batch ++ [(q, a, deck)]).map tuple_card) [] rows
          = (db ++ batch.map tuple_card ++ (row_card deck (q, a) :: rows.map (row_card deck)),
             true)
      rw [ih deck bs [] (db ++ (batch ++ [(q, a, deck)]).map tuple_card) ?_ ?_]
      · simp [tuple_card, row_card]
      · simpa using hnd2.of_append_right
      · intro q' hq'
        simp only [List.map_nil, List.nil_append] at hq'
        intro hmem
        rw [List.map_append, List.mem_append] at hmem
        rcases hmem with hmem | hmem
        · exact hfresh q' (List.mem_append.mpr (Or.inr (by simp [hq']))) hmem
        · have hq'in : q' ∈ (batch.map fun t => t.1) ++ [q] := by
            rw [← hqs]
            simpa [tuple_card, make_card, List.map_map, Function.comp] using hmem
          exact (List.disjoint_of_nodup_append hnd2) hq'in hq'
    · rw [if_neg hflush]
      rw [ih deck bs (batch ++ [(q, a, deck)]) db ?_ ?_]
      · simp [tuple_card, row_card]
      · rw [hqs, ← hassoc]; exact hnodup
      · intro q' hq'
        rw [hqs, ← hassoc] at hq'
        exact hfresh q' hq'

theorem add_items_go_dup_file :
    ∀ m : ℕ, 1 ≤ m → m ≤ 1000 →
      add_items_go "default" 1000 [] (List.replicate (1000 - m) ("dup", "x", "default"))
          (List.replicate m ("dup", "x") ++ [("fresh", "y")])
        = ([], false) := by
  have hdup : insert_into_item [] (List.replicate 1000 ("dup", "x", "default")) = none := by
    decide
  intro m
  induction m with
  | zero => intro h1 _; cases h1
  | succ m ih =>
    intro _ hle
    rw [show List.replicate (m + 1) ("dup", "x") = ("dup", "x") :: List.replicate m ("dup", "x")
      from List.replicate_succ _ _]
    rw [List.cons_append, add_items_go]
    rw [show List.replicate (1000 - (m + 1)) ("dup", "x", "default") ++ [("dup", "x", "default")]
        = List.replicate (1000 - m) ("dup", "x", "default") by
      rw [← List.replicate_succ']
      congr 1
      omega]
    cases Nat.lt_or_ge m 1 with
    | inl hm1 =>
      interval_cases m
      rw [if_pos (by rw [List.length_replicate])]
      rw [show List.replicate (1000 - 0) ("dup", "x", "default")
          = List.replicate 1000 ("dup", "x", "default") from rfl]
      rw [hdup]
    | inr hm1 =>
      rw [if_neg (by rw [List.length_replicate]; omega)]
      exact ih hm1 (by omega)

/-- C10 as frozen is false of the code: an `IntegrityError` in one batch of a
file aborts the rest of that file, so a later batch of the same file is *not*
imported.  Concretely, a file whose first 1000-row batch contains a duplicated
question and whose 1001st row is fresh imports nothing: the fresh row of the
remaining batch is absent and the file is reported once. -/
theorem C10_counterexample :
    add_items_from_files [] "default"
        [("f.csv", List.replicate 1000 ("dup", "x") ++ [("fresh", "y")])]
      = ([], ["f.csv"]) := by
  have h : add_items [] "default" (List.replicate 1000 ("dup", "x") ++ [("fresh", "y")]) 1000
      = ([], false) := by
    rw [add_items]
    have hthis := add_items_go_dup_file 1000 (by norm_num) le_rfl
    rw [show List.replicate (1000 - 1000) ("dup", "x", "default") = ([] : List (String × String × String)) from rfl] at hthis
    exact hthis
  rw [add_items_from_files, h, add_items_from_files]
  rfl

/-- C10 (amended): a duplicate question in one file is reported once for that
file (not per row) and is not fatal to the import run: the remaining *files*
are still imported (a clean later file is inserted in full, on top of whatever
the offending file committed before its failing batch); the remaining batches
of the offending file itself are skipped. -/
theorem C10_import_continues (db : List Card) (deck f g : String)
    (rowsF rowsG : List (String × String))
    (hnodup : (rowsG.map Prod.fst).Nodup)
    (hfresh : ∀ q ∈ rowsG.map Prod.fst,
      q ∉ ((add_items db deck rowsF 1000).1).map Card.question) :
    add_items_from_files db deck [(f, rowsF), (g, rowsG)]
      = ((add_items db deck rowsF 1000).1 ++ rowsG.map (row_card deck),
         if (add_items db deck rowsF 1000).2 then [] else [f]) := by
  have hg : add_items (add_items db deck rowsF 1000).1 deck rowsG 1000
      = ((add_items db deck rowsF 1000).1 ++ rowsG.map (row_card deck), true) := by
    rw [add_items]
    have hthis := add_items_go_clean rowsG deck 1000 [] (add_items db deck rowsF 1000).1
      (by simpa using hnodup) (by simpa using hfresh)
    simpa using hthis
  rw [add_items_from_files, add_items_from_files, hg, add_items_from_files]
  simp

theorem C10_import_continues_witness :
    add_items_from_files [⟨1, 0, 0, 0, 0, "q1", "a1", "", "default"⟩] "default"
        [("f.csv", [("q1", "dup answer")]), ("g.csv", [("q2", "fresh answer")])]
      = ([⟨1, 0, 0, 0, 0, "q1", "a1", "", "default"⟩,
          make_card "default" "q2" "fresh answer"], ["f.csv"]) := by
  have H := C10_import_continues [⟨1, 0, 0, 0, 0, "q1", "a1", "", "default"⟩]
    "default" "f.csv" "g.csv" [("q1", "dup answer")] [("q2", "fresh answer")]
    (by decide) (by decide)
  rw [H]
  decide

/-! ## Binary-heap correctness (C7) -/

theorem parentIdx_lt {c : ℕ} (h : 0 < c) : parentIdx c < c := by
  simp only [parentIdx]; omega

theorem childIdx_parent {c : ℕ} (h : 0 < c) : ChildIdx (parentIdx c) c := by
  simp only [ChildIdx, parentIdx]; omega

theorem childIdx_lt {i c : ℕ} (h : ChildIdx i c) : i < c := by
  rcases h with h | h <;> omega

theorem childIdx_unique {i c : ℕ} (h : ChildIdx i c) : parentIdx c = i := by
  rcases h with h | h <;> simp only [parentIdx] <;> omega

theorem descB_refl (s : ℕ) : descB s s = true := by
  rw [descB]; simp

theorem descB_le {s q : ℕ} (h : descB s q = true) : s ≤ q := by
  induction q using Nat.strong_induction_on with
  | _ q ih =>
    rw [descB] at h
    by_cases h1 : q = s
    · omega
    · rw [if_neg h1] at h
      by_cases h2 : q = 0
      · rw [if_pos h2] at h; cases h
      · rw [if_neg h2] at h
        have := ih (parentIdx q) (parentIdx_lt (by omega)) h
        have := parentIdx_lt (show 0 < q by omega)
        omega

theorem descB_parent {s q : ℕ} (h : descB s q = true) (hne : q ≠ s) :
    descB s (parentIdx q) = true := by
  rw [descB, if_neg hne] at h
  by_cases h2 : q = 0
  · rw [if_pos h2] at h; cases h
  · rwa [if_neg h2] at h

theorem descB_child {s q c : ℕ} (hd : descB s q = true) (hc : ChildIdx q c) :
    descB s c = true := by
  have hq : parentIdx c = q := childIdx_unique hc
  have hlt : q < c := childIdx_lt hc
  rw [descB]
  by_cases h1 : c = s
  · rw [if_pos h1]
  · rw [if_neg h1, if_neg (by omega : ¬ c = 0), hq]
    exact hd

theorem descB_zero (q : ℕ) : descB 0 q = true := by
  induction q using Nat.strong_induction_on with
  | _ q ih =>
    rw [descB]
    by_cases h1 : q = 0
    · simp [h1]
    · rw [if_neg (by omega : ¬ q = (0 : ℕ)), if_neg h1]
      exact ih (parentIdx q) (parentIdx_lt (by omega))

theorem getD_set_self (l : List Item) (i : ℕ) (a : Item) (h : i < l.length) :
    (l.set i a).getD i default = a := by
  simp [List.getD_eq_getElem?_getD, List.getElem?_set_self (by simpa using h)]

theorem getD_set_ne (l : List Item) (i j : ℕ) (a : Item) (h : i ≠ j) :
    (l.set i a).getD j default = l.getD j default := by
  simp [List.getD_eq_getElem?_getD, List.getElem?_set_ne h]

theorem getD_mem (l : List Item) (i : ℕ) (h : i < l.length) : l.getD i default ∈ l := by
  rw [List.getD_eq_getElem _ _ h]
  exact List.getElem_mem h

theorem headD_mem (l : List Item) (h : l ≠ []) : l.headD default ∈ l := by
  cases l with
  | nil => exact absurd rfl h
  | cons x xs => simp

theorem dropLast_getD (l : List Item) (i : ℕ) (h : i < l.length - 1) :
    l.dropLast.getD i default = l.getD i default := by
  rw [List.getD_eq_getElem _ _ (by simp; omega), List.getD_eq_getElem _ _ (by omega)]
  rw [List.getElem_dropLast]

theorem append_getD (l m : List Item) (i : ℕ) (h : i < l.length) :
    (l ++ m).getD i default = l.getD i default := by
  rw [List.getD_eq_getElem _ _ (by simp; omega), List.getD_eq_getElem _ _ h]
  exact List.getElem_append_left ..

/-- Correctness of `_siftdown`: if the array is heap-ordered from `startpos`
on every edge not touching `pos`, `newitem` is below `pos`'s children, and
`pos`'s parent value is below `pos`'s children, then bubbling `newitem` up
restores the heap from `startpos`; length is preserved and every element of
the result is an old element or `newitem`. -/
theorem siftdown_spec :
    ∀ (pos : ℕ) (heap : List Item) (startpos : ℕ) (newitem : Item),
      pos < heap.length → startpos ≤ pos → descB startpos pos = true →
      (∀ j c, startpos ≤ j → ChildIdx j c → c < heap.length → j ≠ pos → c ≠ pos →
        (heap.getD j default).review_time ≤ (heap.getD c default).review_time) →
      (∀ c, ChildIdx pos c → c < heap.length →
        newitem.review_time ≤ (heap.getD c default).review_time) →
      (startpos < pos → ∀ c, ChildIdx pos c → c < heap.length →
        (heap.getD (parentIdx pos) default).review_time
          ≤ (heap.getD c default).review_time) →
      IsHeapFrom (siftdown heap startpos pos newitem) startpos
        ∧ (siftdown heap startpos pos newitem).length = heap.length
        ∧ ∀ y ∈ siftdown heap startpos pos newitem, y ∈ heap ∨ y = newitem := by
  intro pos
  induction pos using Nat.strong_induction_on with
  | _ pos ih =>
    intro heap startpos newitem hlt hle hdesc hheap hchild hgrand
    rw [siftdown]
    by_cases hsp : startpos < pos
    · have hpos0 : 0 < pos := by omega
      have hplt : parentIdx pos < pos := parentIdx_lt hpos0
      rw [if_pos hsp]
      by_cases hcmp : newitem.review_time < (heap.getD (parentIdx pos) default).review_time
      · rw [if_pos hcmp]
        have hdp : descB startpos (parentIdx pos) = true := descB_parent hdesc (by omega)
        have hsp' : startpos ≤ parentIdx pos := descB_le hdp
        have hheap2 : ∀ j c, startpos ≤ j → ChildIdx j c →
            c < (heap.set pos (heap.getD (parentIdx pos) default)).length →
            j ≠ parentIdx pos → c ≠ parentIdx pos →
            (((heap.set pos (heap.getD (parentIdx pos) default)).getD j
              default).review_time)
              ≤ ((heap.set pos (heap.getD (parentIdx pos) default)).getD c
                default).review_time := by
          intro j c hj hcj hclen hjp hcp
          rw [List.length_set] at hclen
          by_cases hcpos : pos = c
          · subst hcpos
            exact absurd (childIdx_unique hcj).symm hjp
          · by_cases hjpos : pos = j
            · subst hjpos
              rw [getD_set_self heap pos _ hlt, getD_set_ne heap pos c _ hcpos]
              exact hgrand hsp c hcj hclen
            · rw [getD_set_ne heap pos j _ hjpos, getD_set_ne heap pos c _ hcpos]
              exact hheap j c hj hcj hclen (Ne.symm hjpos) (Ne.symm hcpos)
        have hchild2 : ∀ c, ChildIdx (parentIdx pos) c →
            c < (heap.set pos (heap.getD (parentIdx pos) default)).length →
            newitem.review_time
              ≤ ((heap.set pos (heap.getD (parentIdx pos) default)).getD c
                default).review_time := by
          intro c hcj hclen
          rw [List.length_set] at hclen
          by_cases hcpos : pos = c
          · subst hcpos
            rw [getD_set_self heap pos _ hlt]
            exact le_of_lt hcmp
          · rw [getD_set_ne heap pos c _ hcpos]
            have hvc : (heap.getD (parentIdx pos) default).review_time
                ≤ (heap.getD c default).review_time :=
              hheap (parentIdx pos) c hsp' hcj hclen (by omega) (Ne.symm hcpos)
            exact le_trans (le_of_lt hcmp) hvc
        have hgrand2 : startpos < parentIdx pos → ∀ c, ChildIdx (parentIdx pos) c →
            c < (heap.set pos (heap.getD (parentIdx pos) default)).length →
            (((heap.set pos (heap.getD (parentIdx pos) default)).getD
              (parentIdx (parentIdx pos)) default).review_time)
              ≤ ((heap.set pos (heap.getD (parentIdx pos) default)).getD c
                default).review_time := by
          intro hsp2 c hcj hclen
          rw [List.length_set] at hclen
          have hg0 : 0 < parentIdx pos := by omega
          have hgplt : parentIdx (parentIdx pos) < parentIdx pos := parentIdx_lt hg0
          rw [getD_set_ne heap pos (parentIdx (parentIdx pos)) _ (by omega)]
          have hdg : descB startpos (parentIdx (parentIdx pos)) = true :=
            descB_parent hdp (by omega)
          have hsg : startpos ≤ parentIdx (parentIdx pos) := descB_le hdg
          have hgp : (heap.getD (parentIdx (parentIdx pos)) default).review_time
              ≤ (heap.getD (parentIdx pos) default).review_time :=
            hheap _ _ hsg (childIdx_parent hg0) (lt_trans hplt hlt) (by omega) (by omega)
          by_cases hcpos : pos = c
          · subst hcpos
            rw [getD_set_self heap pos _ hlt]
            exact hgp
          · rw [getD_set_ne heap pos c _ hcpos]
            have hpc : (heap.getD (parentIdx pos) default).review_time
                ≤ (heap.getD c default).review_time :=
              hheap (parentIdx pos) c hsp' hcj hclen (by omega) (Ne.symm hcpos)
            exact le_trans hgp hpc
        obtain ⟨H1, H2, H3⟩ := ih (parentIdx pos) hplt
          (heap.set pos (heap.getD (parentIdx pos) default)) startpos newitem
          (by simpa using lt_trans hplt hlt) hsp' hdp hheap2 hchild2 hgrand2
        refine ⟨H1, by simpa using H2, ?_⟩
        intro y hy
        rcases H3 y hy with hmem | rfl
        · rcases List.mem_or_eq_of_mem_set hmem with hmem | rfl
          · exact Or.inl hmem
          · exact Or.inl (getD_mem heap (parentIdx pos) (lt_trans hplt hlt))
        · exact Or.inr rfl
      · rw [if_neg hcmp]
        refine ⟨?_, by simp, fun y hy => List.mem_or_eq_of_mem_set hy⟩
        intro i hi c hcj hclen
        rw [List.length_set] at hclen
        by_cases hcpos : pos = c
        · subst hcpos
          have hip : parentIdx pos = i := childIdx_unique hcj
          rw [← hip, getD_set_ne heap pos (parentIdx pos) _ (by omega),
            getD_set_self heap pos _ hlt]
          exact not_lt.mp hcmp
        · by_cases hipos : pos = i
          · subst hipos
            rw [getD_set_self heap pos _ hlt, getD_set_ne heap pos c _ hcpos]
            exact hchild c hcj hclen
          · rw [getD_set_ne heap pos i _ hipos, getD_set_ne heap pos c _ hcpos]
            exact hheap i c hi hcj hclen (Ne.symm hipos) (Ne.symm hcpos)
    · rw [if_neg hsp]
      obtain rfl : pos = startpos := by omega
      refine ⟨?_, by simp, fun y hy => List.mem_or_eq_of_mem_set hy⟩
      intro i hi c hcj hclen
      rw [List.length_set] at hclen
      have hcpos : pos ≠ c := by
        have := childIdx_lt hcj
        omega
      by_cases hipos : pos = i
      · subst hipos
        rw [getD_set_self heap pos _ hlt, getD_set_ne heap pos c _ hcpos]
        exact hchild c hcj hclen
      · rw [getD_set_ne heap pos i _ hipos, getD_set_ne heap pos c _ hcpos]
        exact hheap i c hi hcj hclen (Ne.symm hipos) (Ne.symm hcpos)

theorem siftupChild_spec (heap : List Item) (pos : ℕ) (h : 2 * pos + 1 < heap.length) :
    ChildIdx pos (siftupChild heap pos)
      ∧ siftupChild heap pos < heap.length
      ∧ pos < siftupChild heap pos
      ∧ ∀ c, ChildIdx pos c → c < heap.length →
          (heap.getD (siftupChild heap pos) default).review_time
            ≤ (heap.getD c default).review_time := by
  rw [siftupChild]
  by_cases hcond : 2 * pos + 2 < heap.length
      ∧ ¬ (heap.getD (2 * pos + 1) default).review_time
          < (heap.getD (2 * pos + 2) default).review_time
  · rw [if_pos hcond]
    refine ⟨Or.inr rfl, hcond.1, by omega, ?_⟩
    intro c hc hclen
    rcases hc with rfl | rfl
    · exact not_lt.mp hcond.2
    · exact le_refl _
  · rw [if_neg hcond]
    refine ⟨Or.inl rfl, h, by omega, ?_⟩
    intro c hc hclen
    rcases hc with rfl | rfl
    · exact le_refl _
    · have hlr : (heap.getD (2 * pos + 1) default).review_time
          < (heap.getD (2 * pos + 2) default).review_time := by
        by_contra hnot
        exact hcond ⟨hclen, hnot⟩
      exact le_of_lt hlr

/-- Correctness of the `_siftup` loop: walking the minimal-child path down and
bubbling `newitem` back up produces a heap from `startpos`, provided the array
was heap-ordered from `startpos` except on edges touching `pos`, with `pos`'s
parent value below `pos`'s children. -/
theorem siftupLoop_spec :
    ∀ (k : ℕ) (heap : List Item) (startpos pos : ℕ) (newitem : Item),
      heap.length - pos ≤ k →
      pos < heap.length → startpos ≤ pos → descB startpos pos = true →
      (∀ j c, startpos ≤ j → ChildIdx j c → c < heap.length → j ≠ pos → c ≠ pos →
        (heap.getD j default).review_time ≤ (heap.getD c default).review_time) →
      (startpos < pos → ∀ c, ChildIdx pos c → c < heap.length →
        (heap.getD (parentIdx pos) default).review_time
          ≤ (heap.getD c default).review_time) →
      IsHeapFrom (siftupLoop heap startpos pos newitem) startpos
        ∧ (siftupLoop heap startpos pos newitem).length = heap.length
        ∧ ∀ y ∈ siftupLoop heap startpos pos newitem, y ∈ heap ∨ y = newitem := by
  intro k
  induction k with
  | zero =>
    intro heap startpos pos newitem hk hlt
    omega
  | succ k ih =>
    intro heap startpos pos newitem hk hlt hle hdesc hheap hgrand
    rw [siftupLoop]
    by_cases h : 2 * pos + 1 < heap.length
    · rw [dif_pos h]
      obtain ⟨hcchild, hclen, hcgt, hcmin⟩ := siftupChild_spec heap pos h
      have hheap2 : ∀ j c, startpos ≤ j → ChildIdx j c →
          c < (heap.set pos (heap.getD (siftupChild heap pos) default)).length →
          j ≠ siftupChild heap pos → c ≠ siftupChild heap pos →
          (((heap.set pos (heap.getD (siftupChild heap pos) default)).getD j
            default).review_time)
            ≤ ((heap.set pos (heap.getD (siftupChild heap pos) default)).getD c
              default).review_time := by
        intro j c hj hcj hclen2 hjc hcc
        rw [List.length_set] at hclen2
        by_cases hcpos : pos = c
        · subst hcpos
          have hpos0 : 0 < pos := by rcases hcj with h' | h' <;> omega
          have hplt := parentIdx_lt hpos0
          have hj' : parentIdx pos = j := childIdx_unique hcj
          by_cases hspp : startpos < pos
          · rw [getD_set_ne heap pos j _ (by omega), getD_set_self heap pos _ hlt,
              ← hj']
            exact hgrand hspp (siftupChild heap pos) hcchild hclen
          · exfalso
            omega
        · by_cases hjpos : pos = j
          · subst hjpos
            rw [getD_set_self heap pos _ hlt, getD_set_ne heap pos c _ hcpos]
            exact hcmin c hcj hclen2
          · rw [getD_set_ne heap pos j _ hjpos, getD_set_ne heap pos c _ hcpos]
            exact hheap j c hj hcj hclen2 (Ne.symm hjpos) (Ne.symm hcpos)
      have hgrand2 : startpos < siftupChild heap pos →
          ∀ c, ChildIdx (siftupChild heap pos) c →
          c < (heap.set pos (heap.getD (siftupChild heap pos) default)).length →
          (((heap.set pos (heap.getD (siftupChild heap pos) default)).getD
            (parentIdx (siftupChild heap pos)) default).review_time)
            ≤ ((heap.set pos (heap.getD (siftupChild heap pos) default)).getD c
              default).review_time := by
        intro hs c hcj hclen2
        rw [List.length_set] at hclen2
        have hpc : parentIdx (siftupChild heap pos) = pos := childIdx_unique hcchild
        have hcgt2 : siftupChild heap pos < c := childIdx_lt hcj
        rw [hpc, getD_set_self heap pos _ hlt, getD_set_ne heap pos c _ (by omega)]
        exact hheap _ c (by omega) hcj hclen2 (by omega) (by omega)
      obtain ⟨H1, H2, H3⟩ := ih
        (heap.set pos (heap.getD (siftupChild heap pos) default)) startpos
        (siftupChild heap pos) newitem
        (by simp only [List.length_set]; omega)
        (by simpa using hclen) (by omega) (descB_child hdesc hcchild) hheap2 hgrand2
      refine ⟨H1, by simpa using H2, ?_⟩
      intro y hy
      rcases H3 y hy with hmem | rfl
      · rcases List.mem_or_eq_of_mem_set hmem with hmem | rfl
        · exact Or.inl hmem
        · exact Or.inl (getD_mem heap (siftupChild heap pos) hclen)
      · exact Or.inr rfl
    · rw [dif_neg h]
      have hvac : ∀ c, ChildIdx pos c → ¬ c < heap.length := by
        intro c hc
        rcases hc with rfl | rfl <;> omega
      have hheap3 : ∀ j c, startpos ≤ j → ChildIdx j c →
          c < (heap.set pos newitem).length → j ≠ pos → c ≠ pos →
          ((heap.set pos newitem).getD j default).review_time
            ≤ ((heap.set pos newitem).getD c default).review_time := by
        intro j c hj hcj hclen2 hjp hcp
        rw [List.length_set] at hclen2
        rw [getD_set_ne heap pos j _ (Ne.symm hjp), getD_set_ne heap pos c _ (Ne.symm hcp)]
        exact hheap j c hj hcj hclen2 hjp hcp
      have hchild3 : ∀ c, ChildIdx pos c → c < (heap.set pos newitem).length →
          newitem.review_time ≤ ((heap.set pos newitem).getD c default).review_time := by
        intro c hcj hclen2
        rw [List.length_set] at hclen2
        exact absurd hclen2 (hvac c hcj)
      have hgrand3 : startpos < pos → ∀ c, ChildIdx pos c →
          c < (heap.set pos newitem).length →
          ((heap.set pos newitem).getD (parentIdx pos) default).review_time
            ≤ ((heap.set pos newitem).getD c default).review_time := by
        intro hs c hcj hclen2
        rw [List.length_set] at hclen2
        exact absurd hclen2 (hvac c hcj)
      obtain ⟨H1, H2, H3⟩ := siftdown_spec pos (heap.set pos newitem) startpos newitem
        (by simpa using hlt) hle hdesc hheap3 hchild3 hgrand3
      refine ⟨H1, by simpa using H2, ?_⟩
      intro y hy
      rcases H3 y hy with hmem | rfl
      · rcases List.mem_or_eq_of_mem_set hmem with hmem | rfl
        · exact Or.inl hmem
        · exact Or.inr rfl
      · exact Or.inr rfl

/-- Correctness of `_siftup`: if every slot strictly below `pos` satisfies the
heap condition, sifting at `pos` makes the heap condition hold from `pos` on,
preserving length and elements. -/
theorem siftup_spec (heap : List Item) (pos : ℕ) (hlt : pos < heap.length)
    (hheap : IsHeapFrom heap (pos + 1)) :
    IsHeapFrom (siftup heap pos) pos
      ∧ (siftup heap pos).length = heap.length
      ∧ ∀ y ∈ siftup heap pos, y ∈ heap := by
  obtain ⟨H1, H2, H3⟩ := siftupLoop_spec heap.length heap pos pos
    (heap.getD pos default) (by omega) hlt le_rfl (descB_refl pos)
    (fun j c hj hcj hclen hjp hcp => hheap j (by omega) c hcj hclen)
    (fun hs => absurd hs (by omega))
  refine ⟨H1, H2, ?_⟩
  intro y hy
  rcases H3 y hy with hmem | rfl
  · exact hmem
  · exact getD_mem heap pos hlt

theorem heapifyLoop_spec :
    ∀ (i : ℕ) (heap : List Item), i ≤ heap.length / 2 → IsHeapFrom heap i →
      IsHeap (heapifyLoop heap i)
        ∧ (heapifyLoop heap i).length = heap.length
        ∧ ∀ y ∈ heapifyLoop heap i, y ∈ heap := by
  intro i
  induction i with
  | zero =>
    intro heap _ hheap
    exact ⟨hheap, rfl, fun y hy => hy⟩
  | succ i ih =>
    intro heap hi hheap
    have hilt : i < heap.length := by
      have := Nat.div_le_self heap.length 2
      omega
    obtain ⟨S1, S2, S3⟩ := siftup_spec heap i hilt (fun j hj => hheap j (by omega))
    obtain ⟨H1, H2, H3⟩ := ih (siftup heap i) (by omega) S1
    refine ⟨H1, ?_, fun y hy => S3 y (H3 y hy)⟩
    show (heapifyLoop (siftup heap i) i).length = heap.length
    rw [H2, S2]

theorem heapify_spec (heap : List Item) :
    IsHeap (heapify heap)
      ∧ (heapify heap).length = heap.length
      ∧ ∀ y ∈ heapify heap, y ∈ heap := by
  refine heapifyLoop_spec (heap.length / 2) heap le_rfl ?_
  intro i hi c hcj hclen
  exfalso
  rcases hcj with rfl | rfl <;> omega

/-- In a heap the root is a minimum. -/
theorem isHeap_root_le (l : List Item) (hh : IsHeap l) :
    ∀ j, j < l.length →
      (l.getD 0 default).review_time ≤ (l.getD j default).review_time := by
  intro j
  induction j using Nat.strong_induction_on with
  | _ j ihj =>
    intro hj
    cases Nat.eq_zero_or_pos j with
    | inl h0 => subst h0; exact le_refl _
    | inr h0 =>
      have hplt := parentIdx_lt h0
      have hroot := ihj (parentIdx j) hplt (by omega)
      have hedge := hh (parentIdx j) (Nat.zero_le _) j (childIdx_parent h0) hj
      exact le_trans hroot hedge

theorem isHeap_root_le_mem (l : List Item) (hh : IsHeap l) (y : Item) (hy : y ∈ l) :
    (l.getD 0 default).review_time ≤ y.review_time := by
  obtain ⟨j, hj, rfl⟩ := List.mem_iff_getElem.mp hy
  rw [← List.getD_eq_getElem l default hj]
  exact isHeap_root_le l hh j hj

/-- Correctness of `heappop` on a non-empty heap: it returns the root (the
minimum) and a heap of the remaining elements, one shorter. -/
theorem heappop_spec (l : List Item) (hne : l ≠ []) (hh : IsHeap l) :
    ∃ rest, heappop l = some (l.headD default, rest)
      ∧ IsHeap rest
      ∧ rest.length = l.length - 1
      ∧ (∀ y ∈ rest, y ∈ l)
      ∧ ∀ y ∈ rest, (l.headD default).review_time ≤ y.review_time := by
  obtain ⟨lastelt, hlast⟩ : ∃ a, l.getLast? = some a := by
    cases hl : l.getLast? with
    | none => exact absurd (List.getLast?_eq_none_iff.mp hl) hne
    | some a => exact ⟨a, rfl⟩
  have hlastmem : lastelt ∈ l := List.mem_of_mem_getLast? hlast
  by_cases hemp : l.dropLast.isEmpty = true
  · have hsing : l = [lastelt] := by
      cases l with
      | nil => exact absurd rfl hne
      | cons x xs =>
        cases xs with
        | nil =>
          have hx : x = lastelt := by simpa using hlast
          rw [hx]
        | cons y ys => simp [List.dropLast] at hemp
    subst hsing
    refine ⟨[], rfl, ?_, by simp, ?_, ?_⟩
    · intro i _ c _ hc
      simp at hc
    · intro y hy; cases hy
    · intro y hy; cases hy
  · have hlen2 : 2 ≤ l.length := by
      cases l with
      | nil => exact absurd rfl hne
      | cons x xs =>
        cases xs with
        | nil => simp [List.dropLast] at hemp
        | cons y ys => simp
    have hdllen : l.dropLast.length = l.length - 1 := by simp
    have hset0 : (0 : ℕ) < (l.dropLast.set 0 lastelt).length := by
      simp only [List.length_set]
      omega
    have hpre : IsHeapFrom (l.dropLast.set 0 lastelt) 1 := by
      intro i hi c hcj hclen
      rw [List.length_set, hdllen] at hclen
      have hci : i < c := childIdx_lt hcj
      rw [getD_set_ne _ 0 i _ (by omega), getD_set_ne _ 0 c _ (by omega)]
      rw [dropLast_getD l i (by omega), dropLast_getD l c (by omega)]
      exact hh i (Nat.zero_le _) c hcj (by omega)
    obtain ⟨S1, S2, S3⟩ := siftup_spec (l.dropLast.set 0 lastelt) 0 hset0
      (fun j hj => hpre j hj)
    refine ⟨siftup (l.dropLast.set 0 lastelt) 0, ?_, S1, ?_, ?_, ?_⟩
    · unfold heappop
      rw [hlast]
      show (if l.dropLast.isEmpty = true then some (lastelt, l.dropLast)
          else some (l.dropLast.getD 0 default, siftup (l.dropLast.set 0 lastelt) 0))
        = some (l.headD default, siftup (l.dropLast.set 0 lastelt) 0)
      rw [if_neg hemp, dropLast_getD l 0 (by omega), getD_zero_eq_headD]
    · rw [S2, List.length_set, hdllen]
    · intro y hy
      rcases List.mem_or_eq_of_mem_set (S3 y hy) with hmem | rfl
      · exact List.dropLast_subset l hmem
      · exact hlastmem
    · intro y hy
      have hyl : y ∈ l := by
        rcases List.mem_or_eq_of_mem_set (S3 y hy) with hmem | rfl
        · exact List.dropLast_subset l hmem
        · exact hlastmem
      rw [← getD_zero_eq_headD]
      exact isHeap_root_le_mem l hh y hyl

/-- `heappush` preserves the heap invariant, adds the item, and grows the
length by one. -/
theorem heappush_spec (l : List Item) (x : Item) (hh : IsHeap l) :
    IsHeap (heappush l x)
      ∧ (heappush l x).length = l.length + 1
      ∧ ∀ y ∈ heappush l x, y ∈ l ∨ y = x := by
  have hvac : ∀ c, ChildIdx l.length c → ¬ c < (l ++ [x]).length := by
    intro c hc
    rcases hc with rfl | rfl <;> simp <;> omega
  have hheap4 : ∀ j c, 0 ≤ j → ChildIdx j c → c < (l ++ [x]).length →
      j ≠ l.length → c ≠ l.length →
      ((l ++ [x]).getD j default).review_time
        ≤ ((l ++ [x]).getD c default).review_time := by
    intro j c hj hcj hclen hjp hcp
    rw [List.length_append, List.length_singleton] at hclen
    have hjc := childIdx_lt hcj
    have hcl : c < l.length := by omega
    rw [append_getD l [x] j (by omega), append_getD l [x] c hcl]
    exact hh j (Nat.zero_le _) c hcj hcl
  have hchild4 : ∀ c, ChildIdx l.length c → c < (l ++ [x]).length →
      x.review_time ≤ ((l ++ [x]).getD c default).review_time := by
    intro c hcj hclen
    exact absurd hclen (hvac c hcj)
  have hgrand4 : 0 < l.length → ∀ c, ChildIdx l.length c → c < (l ++ [x]).length →
      ((l ++ [x]).getD (parentIdx l.length) default).review_time
        ≤ ((l ++ [x]).getD c default).review_time := by
    intro hs c hcj hclen
    exact absurd hclen (hvac c hcj)
  obtain ⟨H1, H2, H3⟩ := siftdown_spec l.length (l ++ [x]) 0 x
    (by simp) (Nat.zero_le _) (descB_zero _) hheap4 hchild4 hgrand4
  refine ⟨H1, by simpa using H2, ?_⟩
  intro y hy
  rcases H3 y hy with hmem | rfl
  · rcases List.mem_append.mp hmem with hmem | hmem
    · exact Or.inl hmem
    · exact Or.inr (List.mem_singleton.mp hmem)
  · exact Or.inr rfl

theorem popAllFuel_spec :
    ∀ (k : ℕ) (l : List Item), l.length ≤ k → IsHeap l →
      List.Pairwise (fun a b : Item => a.review_time ≤ b.review_time) (popAllFuel k l)
        ∧ ∀ y ∈ popAllFuel k l, y ∈ l := by
  intro k
  induction k with
  | zero =>
    intro l _ _
    exact ⟨List.Pairwise.nil, fun y hy => absurd hy (List.not_mem_nil y)⟩
  | succ k ih =>
    intro l hk hh
    by_cases hne : l = []
    · subst hne
      rw [popAllFuel, show heappop [] = none from rfl]
      exact ⟨List.Pairwise.nil, fun y hy => absurd hy (List.not_mem_nil y)⟩
    · obtain ⟨rest, hpop, hrest, hlen, hsub, hmin⟩ := heappop_spec l hne hh
      rw [popAllFuel, hpop]
      have hlenk : rest.length ≤ k := by
        have : 0 < l.length := List.length_pos.mpr hne
        omega
      obtain ⟨IH1, IH2⟩ := ih rest hlenk hrest
      constructor
      · exact List.pairwise_cons.mpr ⟨fun y hy => hmin y (IH2 y hy), IH1⟩
      · intro y hy
        rcases List.mem_cons.mp hy with rfl | hy
        · exact headD_mem l hne
        · exact hsub y (IH2 y hy)

/-- C7: an item list built by `load_items` (projected from the table and
heapified) pops out in non-decreasing `review_time` order, and reinserting an
item with `heappush` preserves that property. -/
theorem C7_popAll_sorted (db : List Card) (decks : List String) (x : Item) :
    List.Pairwise (fun a b : Item => a.review_time ≤ b.review_time)
        (popAll (load_items db decks))
      ∧ List.Pairwise (fun a b : Item => a.review_time ≤ b.review_time)
          (popAll (heappush (load_items db decks) x)) := by
  have hheap : IsHeap (load_items db decks) := (heapify_spec _).1
  constructor
  · exact (popAllFuel_spec (load_items db decks).length (load_items db decks)
      le_rfl hheap).1
  · exact (popAllFuel_spec (heappush (load_items db decks) x).length
      (heappush (load_items db decks) x) le_rfl (heappush_spec _ x hheap).1).1

end Serious
